import Mathlib

/-!
Verification of the two visualization scripts in this repository:
`visualize_qtable.py` (Q-table heatmap) and `examples/knight/visualize.py`
(knight's-tour board renderer).  The Python functions are shallowly embedded
as executable Lean definitions; numbers that the scripts handle as Python
floats are modelled as exact rationals (the scripts only compare, select and
divide them), and the numpy 2D array is modelled by its dimensions together
with its lookup function.
-/

set_option maxHeartbeats 1600000

/-- The value of a decimal digit string (Python `int` on a run of digits,
leading zeros allowed). -/
def digitsToNat (ds : List Char) : Nat :=
  ds.foldl (fun a c => 10 * a + (c.toNat - '0'.toNat)) 0

/-- Split off the maximal leading run of decimal digits (the greedy `\d+`). -/
def takeDigits : List Char → List Char × List Char
  | [] => ([], [])
  | c :: cs =>
    if c.isDigit then
      let (ds, rest) := takeDigits cs
      (c :: ds, rest)
    else
      ([], c :: cs)

/-- Scan body of `re.findall(r'-?\d+', s)`, structurally recursive on a fuel
argument.  Every step consumes at least one character, so any fuel of at
least the list's length computes the unbounded scan
(`findIntsAux_fuel_irrel`). -/
def findIntsAux : Nat → List Char → List Int
  | 0, _ => []
  | _ + 1, [] => []
  | fuel + 1, c :: cs =>
    if c = '-' then
      match cs with
      | [] => []
      | d :: ds =>
        if d.isDigit then
          (-(digitsToNat (takeDigits (d :: ds)).1 : Int)) ::
            findIntsAux fuel (takeDigits (d :: ds)).2
        else
          findIntsAux fuel (d :: ds)
    else if c.isDigit then
      (digitsToNat (c :: (takeDigits cs).1) : Int) ::
        findIntsAux fuel (takeDigits cs).2
    else
      findIntsAux fuel cs

/-- Model of `re.findall(r'-?\d+', s)` over the characters of `s`, with each matched
token converted by Python `int`: a left-to-right scan taking, at each
position, the leftmost greedy match of an optional minus sign followed by
one or more digits. -/
def findInts (l : List Char) : List Int :=
  findIntsAux l.length l

/-- Function `parse_grid_state` from `visualize_qtable.py`: extract the integer
substrings of the key; with at least two, the first two are `(x, y)`,
otherwise `None`. -/
def parse_grid_state (s : String) : Option (Int × Int) :=
  match findInts s.data with
  | a :: b :: _ => some (a, b)
  | _ => none

/-- A JSON value stored under a state key: either a bare number or a
mapping of action names to numbers (a Python dict, in insertion order). -/
inductive QVal where
  | num : ℚ → QVal
  | dict : List (String × ℚ) → QVal
deriving DecidableEq, Repr

/-- A Q-table JSON object: keys with values, in insertion order
(Python dicts preserve insertion order and are traversed in it). -/
abbrev Qtable := List (String × QVal)

/-- One step of Python's `max` over an iterable: the running best is
replaced only when the next item is strictly larger (ties keep the earlier
item). -/
def pymax (best item : ℚ) : ℚ :=
  if best < item then item else best

/-- Python `max(value.values()) if value else 0`: maximum of the dict's
values for a nonempty dict, `0` for an empty one. -/
def dictMax : List (String × ℚ) → ℚ
  | [] => 0
  | (_, v) :: rest => (rest.map Prod.snd).foldl pymax v

/-- The scalar the fill loop writes for one key's value: the dict maximum
for the nested format, the value itself for the flat format. -/
def reduceQVal : QVal → ℚ
  | .num v => v
  | .dict l => dictMax l

/-- The state of the first loop of `qtable_to_grid`: the `state_coords`
dict (as an insertion-ordered association list) and the running maxima,
which start at `0`. -/
structure ScanState where
  state_coords : List (String × (Int × Int))
  max_x : Int
  max_y : Int
deriving Repr

/-- One iteration of the first loop of `qtable_to_grid` on `state_key`. -/
def scanStep (st : ScanState) (key : String) : ScanState :=
  match parse_grid_state key with
  | some (x, y) =>
    { state_coords := st.state_coords ++ [(key, (x, y))]
      max_x := max st.max_x x
      max_y := max st.max_y y }
  | none => st

/-- The first loop of `qtable_to_grid` over all keys. -/
def scanKeys (q : Qtable) : ScanState :=
  q.foldl (fun st kv => scanStep st kv.1) ⟨[], 0, 0⟩

/-- First-match lookup in the `state_coords` association list
(`state_key in state_coords` / `state_coords[state_key]`). -/
def lookupCoords : List (String × (Int × Int)) → String → Option (Int × Int)
  | [], _ => none
  | e :: rest, k => if e.1 = k then some e.2 else lookupCoords rest k

/-- The numpy 2D array, modelled by its dimensions and lookup function
(row `i`, column `j`). -/
structure Grid where
  rows : Nat
  cols : Nat
  cell : Nat → Nat → ℚ

/-- Model of `np.zeros(grid_shape)`. -/
def zerosGrid (rows cols : Nat) : Grid :=
  ⟨rows, cols, fun _ _ => 0⟩

/-- Assignment `grid[y, x] = v` (the write is only issued under the script's bounds
check, so the indices are in range). -/
def gridSet (g : Grid) (y x : Int) (v : ℚ) : Grid :=
  { g with cell := fun i j => if (i : Int) = y ∧ (j : Int) = x then v else g.cell i j }

/-- One iteration of the fill loop of `qtable_to_grid`: look the key up in
`state_coords`, check bounds, reduce the value, write the cell. -/
def fillStep (coords : List (String × (Int × Int))) (rows cols : Nat)
    (g : Grid) (kv : String × QVal) : Grid :=
  match lookupCoords coords kv.1 with
  | some (x, y) =>
    if 0 ≤ y ∧ y < (rows : Int) ∧ 0 ≤ x ∧ x < (cols : Int) then
      gridSet g y x (reduceQVal kv.2)
    else g
  | none => g

/-- Function `qtable_to_grid` from `visualize_qtable.py`.  The grid shape is a pair
of naturals (`np.zeros` rejects negative dimensions; the inferred shape
`(max_y + 1, max_x + 1)` is always positive because the maxima start at
`0`). -/
def qtable_to_grid (q : Qtable) (grid_shape : Option (Nat × Nat)) : Grid :=
  let st := scanKeys q
  let shape :=
    match grid_shape with
    | some s => s
    | none => ((st.max_y + 1).toNat, (st.max_x + 1).toNat)
  q.foldl (fillStep st.state_coords shape.1 shape.2) (zerosGrid shape.1 shape.2)

/-- The spec's worked example input
`{"(0,0)": 1.0, "(1,0)": {"up": 2.0, "down": 0.5}, "(0,1)": 3.0}`
(`mkRat 1 2` is the exact value `0.5`). -/
def exampleQtable : Qtable :=
  [("(0,0)", QVal.num 1),
   ("(1,0)", QVal.dict [("up", 2), ("down", mkRat 1 2)]),
   ("(0,1)", QVal.num 3)]

/-- The `state_coords` entry contributed by one key-value pair: the key
paired with its parsed coordinates, when parsing succeeds. -/
def parsedEntry (kv : String × QVal) : Option (String × (Int × Int)) :=
  (parse_grid_state kv.1).map (fun c => (kv.1, c))

/-- The parsed coordinates of the parseable keys, in traversal order. -/
def specParsedCoords (q : Qtable) : List (Int × Int) :=
  q.filterMap (fun kv => parse_grid_state kv.1)

/-- The fill-loop body with the `state_coords` lookup replaced by direct
re-parsing of the key; equivalent on the keys of the table
(`foldl_fillStep_eq`), since `state_coords` maps every stored key to its
parse result. -/
def fillStepP (rows cols : Nat) (g : Grid) (kv : String × QVal) : Grid :=
  match parse_grid_state kv.1 with
  | some (x, y) =>
    if 0 ≤ y ∧ y < (rows : Int) ∧ 0 ≤ x ∧ x < (cols : Int) then
      gridSet g y x (reduceQVal kv.2)
    else g
  | none => g

/-- The grid shape `qtable_to_grid` resolves: the explicit one when given,
otherwise `(max_y + 1, max_x + 1)` from the scan (whose maxima start at
`0`). -/
def resolvedShape (q : Qtable) (grid_shape : Option (Nat × Nat)) : Nat × Nat :=
  match grid_shape with
  | some s => s
  | none => (((scanKeys q).max_y + 1).toNat, ((scanKeys q).max_x + 1).toNat)

/-- The write (if any) that the fill loop issues to cell `(i, j)` while
processing one key-value pair, threading an accumulator so that the last
write wins. -/
def writeAt (rows cols : Nat) (i j : Nat) (acc : Option QVal) (kv : String × QVal) :
    Option QVal :=
  match parse_grid_state kv.1 with
  | some (x, y) =>
    if (0 ≤ y ∧ y < (rows : Int) ∧ 0 ≤ x ∧ x < (cols : Int)) ∧ (i : Int) = y ∧ (j : Int) = x then
      some kv.2
    else acc
  | none => acc

/-- The value of the last in-bounds write to cell `(i, j)` over the whole
table, if any. -/
def lastCellWrite (rows cols : Nat) (q : Qtable) (i j : Nat) : Option QVal :=
  q.foldl (writeAt rows cols i j) none

/-- The value attached to the last key (in traversal order) that parses to
exactly `(x, y)`. -/
def lastValueAt (q : Qtable) (x y : Int) : Option QVal :=
  q.foldl (fun acc kv =>
    match parse_grid_state kv.1 with
    | some c => if c = (x, y) then some kv.2 else acc
    | none => acc) none

/-- Following the spec's sizing rule with the implementation's floor: the
maximum of `0` and every parsed `y`. -/
def floorMaxY (q : Qtable) : Int :=
  (specParsedCoords q).foldr (fun c m => max c.2 m) 0

/-- Following the spec's sizing rule with the implementation's floor: the
maximum of `0` and every parsed `x`. -/
def floorMaxX (q : Qtable) : Int :=
  (specParsedCoords q).foldr (fun c m => max c.1 m) 0

/-- Whether a key parses to coordinates inside an `r × c` grid. -/
def inBoundsKey (r c : Nat) (kv : String × QVal) : Bool :=
  match parse_grid_state kv.1 with
  | some (x, y) => decide (0 ≤ y ∧ y < (r : Int) ∧ 0 ≤ x ∧ x < (c : Int))
  | none => false

/-- Python truthiness of an optional integer CLI argument: absent
(`None`) and `0` are falsy, every other integer is truthy. -/
def optIntTruthy : Option Int → Bool
  | none => false
  | some n => decide (n ≠ 0)

/-- The `grid_shape` computed by `main` in `visualize_qtable.py`:
`grid_shape = (args.rows, args.cols) if args.rows and args.cols else None`
(an `if` on Python truthiness of the two parsed arguments). -/
def mainGridShape (rows cols : Option Int) : Option (Int × Int) :=
  if optIntTruthy rows && optIntTruthy cols then
    some (rows.getD 0, cols.getD 0)
  else none

/-- Python `str.replace` body, structurally recursive on a fuel argument.
Every step consumes at least one character (the pattern in this repository
is `".png"`, never empty), so any fuel of at least the list's length
computes the unbounded scan (`replaceAllAux_fuel_irrel`). -/
def replaceAllAux (pat rep : List Char) : Nat → List Char → List Char
  | 0, l => l
  | _ + 1, [] => []
  | fuel + 1, c :: rest =>
    if pat ≠ [] ∧ pat.isPrefixOf (c :: rest) = true then
      rep ++ replaceAllAux pat rep fuel ((c :: rest).drop pat.length)
    else
      c :: replaceAllAux pat rep fuel rest

/-- Python `s.replace(pat, rep)`: replace every non-overlapping occurrence
of `pat`, scanning left to right (modelled on the character lists; an
empty pattern is returned unchanged, a case the script never exercises). -/
def pyReplace (s pat rep : String) : String :=
  String.mk (replaceAllAux pat.data rep.data s.data.length s.data)

/-- Following the spec's words for the high-quality output file: the
output path with its `.png` suffix removed and `_hq.png` appended in its
place. -/
def specSuffixHq (p : String) : String :=
  String.mk (p.data.take (p.data.length - ".png".data.length)) ++ "_hq.png"

/-- The input JSON of the knight's-tour script: `board_size`, `start`,
`path` (already projected to its `(x, y)` pairs), `visited_squares` and
`total_squares`. -/
structure KnightData where
  board_size : Nat
  start : Int × Int
  path : List (Int × Int)
  visited_squares : Int
  total_squares : Int
deriving DecidableEq, Repr

/-- One drawing primitive issued by `visualize_knight_tour`: a board
square, the start marker `"S"`, a path arrow, a step-number label, or the
end marker `"E"`. -/
inductive DrawCmd where
  | square (x y : Nat) (light : Bool)
  | startMark (x y : Int)
  | arrow (x0 y0 x1 y1 : Int)
  | stepNum (x y : Int) (n : Nat)
  | endMark (x y : Int)
deriving DecidableEq, Repr

/-- The chessboard squares, `x` outer and `y` inner, light when
`(x + y) % 2 == 0`. -/
def boardCmds (N : Nat) : List DrawCmd :=
  (List.range N).foldr
    (fun x acc =>
      ((List.range N).map (fun y => DrawCmd.square x y (decide ((x + y) % 2 = 0)))) ++ acc)
    []

/-- Iteration `i` of the path loop: the arrow from `path[i]` to
`path[i+1]`, and for `i > 0` the step-number label `i + 1` at `path[i]`
(the start cell already carries `"S"`). -/
def stepCmds (path : List (Int × Int)) (i : Nat) : List DrawCmd :=
  [DrawCmd.arrow (path.getD i (0, 0)).1 (path.getD i (0, 0)).2
    (path.getD (i + 1) (0, 0)).1 (path.getD (i + 1) (0, 0)).2] ++
  (if 0 < i then
    [DrawCmd.stepNum (path.getD i (0, 0)).1 (path.getD i (0, 0)).2 (i + 1)]
  else [])

/-- The commands of the first `n` iterations of the path loop, in order
(the script runs it for `n = len(path) - 1`). -/
def pathSteps (path : List (Int × Int)) : Nat → List DrawCmd
  | 0 => []
  | n + 1 => pathSteps path n ++ stepCmds path n

/-- The end-of-path block: for a path longer than one cell, the `"E"`
marker and the final step number `len(path)` at the last cell. -/
def endCmds (path : List (Int × Int)) : List DrawCmd :=
  if 1 < path.length then
    [DrawCmd.endMark (path.getD (path.length - 1) (0, 0)).1
        (path.getD (path.length - 1) (0, 0)).2,
     DrawCmd.stepNum (path.getD (path.length - 1) (0, 0)).1
        (path.getD (path.length - 1) (0, 0)).2 path.length]
  else []

/-- Product of two rationals, computed on numerators and denominators so
that it evaluates inside the kernel; `ratMul_eq` identifies it with the
field product of `ℚ`. -/
def ratMul (a b : ℚ) : ℚ :=
  mkRat (a.num * b.num) (a.den * b.den)

/-- Difference of two rationals, computed on numerators and denominators
so that it evaluates inside the kernel; `ratSub_eq` identifies it with the
field difference of `ℚ`. -/
def ratSub (a b : ℚ) : ℚ :=
  mkRat (a.num * (b.den : Int) - b.num * (a.den : Int)) (a.den * b.den)

/-- Floor of a rational, computed from its reduced fraction. -/
def ratFloor (q : ℚ) : Int :=
  Int.fdiv q.num (q.den : Int)

/-- Round to the nearest integer, ties to even (the rounding of Python's
fixed-point formatting, applied here to the exact rational value). -/
def roundHalfEven (q : ℚ) : Int :=
  if ratSub q ((ratFloor q : Int) : ℚ) < mkRat 1 2 then ratFloor q
  else if mkRat 1 2 < ratSub q ((ratFloor q : Int) : ℚ) then ratFloor q + 1
  else if ratFloor q % 2 = 0 then ratFloor q else ratFloor q + 1

/-- Idealization of `f"{v:.1f}"` over an exact rational `v`: the value
rounded to tenths (ties to even) and printed with one digit after the
decimal point.  This is an exact-arithmetic stand-in, not a model of the
program's formatting: the script formats an IEEE-754 double, whose
rendering can differ from the exact value's in the last digit, and Python
prints `-0.0` for a negative value rounding to zero where this function
prints `0.0`.  No theorem about the scripts relies on this rendering. -/
def format_fixed1 (q : ℚ) : String :=
  (if roundHalfEven (ratMul ((10 : Int) : ℚ) q) < 0 then "-" else "") ++
    toString ((roundHalfEven (ratMul ((10 : Int) : ℚ) q)).natAbs / 10) ++ "." ++
    toString ((roundHalfEven (ratMul ((10 : Int) : ℚ) q)).natAbs % 10)

/-- Idealization of `completion_pct = (visited / total) * 100` as the
exact rational `(visited /. total) * 100`.  The program computes this in
IEEE-754 double precision (`visited / total` rounded to binary64, then
the product rounded again), which can change the digit the title shows:
for `visited = 15, total = 10000` the double prints `0.1` although the
exact ratio is `0.15`.  This definition is kept only so the title model
is complete; no theorem about the scripts relies on the value.  (Python
raises `ZeroDivisionError` for `total = 0`, where `Rat.divInt` returns
`0`.) -/
def completion_pct (d : KnightData) : ℚ :=
  ratMul (Rat.divInt d.visited_squares d.total_squares) ((100 : Int) : ℚ)

/-- The formatted percentage embedded in the title. -/
def pctString (d : KnightData) : String :=
  format_fixed1 (completion_pct d)

/-- The two-line title of the plot. -/
def knightTitle (d : KnightData) : String :=
  "Knight's Tour via Q-learning (" ++ toString d.board_size ++ "×" ++
    toString d.board_size ++ " board)\n" ++
  "Path length: " ++ toString d.visited_squares ++ "/" ++
    toString d.total_squares ++ " (" ++ pctString d ++ "% complete)"

/-- What `visualize_knight_tour` renders: the drawing commands in issue
order, the title, and the files written with their dpi. -/
structure KnightRender where
  cmds : List DrawCmd
  title : String
  saved : List (String × Nat)

/-- Function `visualize_knight_tour` from `examples/knight/visualize.py`: draw the
board, the `"S"` marker, the path loop, the end block; set the title; save
the figure at `output_path` (dpi 150) and again at
`output_path.replace('.png', '_hq.png')` (dpi 300). -/
def visualize_knight_tour (d : KnightData) (output_path : String) : KnightRender :=
  { cmds := boardCmds d.board_size ++ [DrawCmd.startMark d.start.1 d.start.2] ++
      pathSteps d.path (d.path.length - 1) ++ endCmds d.path
    title := knightTitle d
    saved := [(output_path, 150), (pyReplace output_path ".png" "_hq.png", 300)] }

/-- Whether a command is a path arrow. -/
def isArrowCmd : DrawCmd → Bool
  | .arrow _ _ _ _ => true
  | _ => false

/-- Whether a command is a step-number label. -/
def isStepNumCmd : DrawCmd → Bool
  | .stepNum _ _ _ => true
  | _ => false

/-- Number of arrows drawn. -/
def countArrows (l : List DrawCmd) : Nat :=
  l.countP isArrowCmd

/-- Number of step-number labels drawn. -/
def countStepNums (l : List DrawCmd) : Nat :=
  l.countP isStepNumCmd

/-- The last two characters are a decimal point followed by one digit:
the string shows exactly one decimal place. -/
def endsInDotDigit (s : String) : Bool :=
  match s.data.reverse with
  | d :: e :: _ => d.isDigit && (e = '.')
  | _ => false

theorem takeDigits_snd_length_le : ∀ l : List Char, (takeDigits l).2.length ≤ l.length := by
  intro l
  induction l with
  | nil => simp [takeDigits]
  | cons c cs ih =>
    by_cases h : c.isDigit
    · simp only [takeDigits, h, if_true]
      exact le_trans ih (Nat.le_succ _)
    · simp [takeDigits, h]

theorem takeDigits_snd_length_lt (c : Char) (cs : List Char) (h : c.isDigit = true) :
    (takeDigits (c :: cs)).2.length < (c :: cs).length := by
  simp only [takeDigits, h, if_true]
  have h1 : (takeDigits cs).2.length ≤ cs.length := takeDigits_snd_length_le cs
  simp only [List.length_cons]
  omega

theorem findIntsAux_nil : ∀ fuel, findIntsAux fuel [] = [] := by
  intro fuel
  cases fuel <;> rfl

theorem findIntsAux_fuel_irrel :
    ∀ f1 f2 (l : List Char), l.length ≤ f1 → l.length ≤ f2 →
      findIntsAux f1 l = findIntsAux f2 l := by
  intro f1
  induction f1 with
  | zero =>
    intro f2 l h1 _
    have : l = [] := List.eq_nil_of_length_eq_zero (Nat.le_zero.mp h1)
    subst this
    simp [findIntsAux_nil]
  | succ f ih =>
    intro f2 l h1 h2
    cases l with
    | nil => simp [findIntsAux_nil]
    | cons c cs =>
      obtain ⟨f2', rfl⟩ : ∃ f2', f2 = f2' + 1 := by
        cases f2 with
        | zero => simp at h2
        | succ k => exact ⟨k, rfl⟩
      simp only [List.length_cons] at h1 h2
      by_cases hc : c = '-'
      · cases cs with
        | nil => simp [findIntsAux, hc]
        | cons d ds =>
          simp only [List.length_cons] at h1 h2
          by_cases hd : d.isDigit
          · have hlt : (takeDigits (d :: ds)).2.length < (d :: ds).length :=
              takeDigits_snd_length_lt d ds hd
            simp only [List.length_cons] at hlt
            simp only [findIntsAux, hc, if_true, hd]
            rw [ih f2' _ (by omega) (by omega)]
          · simp only [findIntsAux, hc, if_true, hd, if_false]
            exact ih f2' _ (by simp only [List.length_cons]; omega)
              (by simp only [List.length_cons]; omega)
      · by_cases hdig : c.isDigit
        · have hle : (takeDigits cs).2.length ≤ cs.length := takeDigits_snd_length_le cs
          simp only [findIntsAux, hc, hdig, if_true, if_false]
          rw [ih f2' _ (by omega) (by omega)]
        · simp only [findIntsAux, hc, hdig, if_false]
          exact ih f2' _ (by omega) (by omega)

theorem scanFold_coords (q : Qtable) :
    ∀ st : ScanState,
      (q.foldl (fun st kv => scanStep st kv.1) st).state_coords =
        st.state_coords ++ q.filterMap parsedEntry := by
  induction q with
  | nil => intro st; simp
  | cons kv t ih =>
    intro st
    simp only [List.foldl_cons, List.filterMap_cons]
    cases hp : parse_grid_state kv.1 with
    | none =>
      simp only [parsedEntry, hp, Option.map_none']
      rw [ih]
      simp [scanStep, hp]
    | some c =>
      simp only [parsedEntry, hp, Option.map_some']
      rw [ih]
      simp [scanStep, hp, List.append_assoc]

theorem scanFold_max_y (q : Qtable) :
    ∀ st : ScanState,
      (q.foldl (fun st kv => scanStep st kv.1) st).max_y =
        (specParsedCoords q).foldl (fun m c => max m c.2) st.max_y := by
  induction q with
  | nil => intro st; simp [specParsedCoords]
  | cons kv t ih =>
    intro st
    simp only [List.foldl_cons, specParsedCoords, List.filterMap_cons]
    cases hp : parse_grid_state kv.1 with
    | none =>
      rw [ih]
      simp [scanStep, hp, specParsedCoords]
    | some c =>
      rw [ih]
      simp [scanStep, hp, specParsedCoords]

theorem scanFold_max_x (q : Qtable) :
    ∀ st : ScanState,
      (q.foldl (fun st kv => scanStep st kv.1) st).max_x =
        (specParsedCoords q).foldl (fun m c => max m c.1) st.max_x := by
  induction q with
  | nil => intro st; simp [specParsedCoords]
  | cons kv t ih =>
    intro st
    simp only [List.foldl_cons, specParsedCoords, List.filterMap_cons]
    cases hp : parse_grid_state kv.1 with
    | none =>
      rw [ih]
      simp [scanStep, hp, specParsedCoords]
    | some c =>
      rw [ih]
      simp [scanStep, hp, specParsedCoords]

theorem lookupCoords_of_parse_none (q : Qtable) (k : String)
    (h : parse_grid_state k = none) :
    lookupCoords (q.filterMap parsedEntry) k = none := by
  induction q with
  | nil => simp [lookupCoords]
  | cons kv t ih =>
    simp only [List.filterMap_cons]
    cases hp : parse_grid_state kv.1 with
    | none => simpa [parsedEntry, hp] using ih
    | some c =>
      simp only [parsedEntry, hp, Option.map_some']
      simp only [lookupCoords]
      by_cases he : kv.1 = k
      · subst he; rw [hp] at h; exact absurd h (by simp)
      · simpa [he] using ih

theorem lookupCoords_of_mem (q : Qtable) (k : String)
    (h : k ∈ q.map Prod.fst) :
    lookupCoords (q.filterMap parsedEntry) k = parse_grid_state k := by
  induction q with
  | nil => simp at h
  | cons kv t ih =>
    simp only [List.map_cons, List.mem_cons] at h
    simp only [List.filterMap_cons]
    cases hp : parse_grid_state kv.1 with
    | none =>
      simp only [parsedEntry, hp, Option.map_none']
      rcases h with h | h
      · subst h
        exact (lookupCoords_of_parse_none t kv.1 hp).trans hp.symm
      · exact ih h
    | some c =>
      simp only [parsedEntry, hp, Option.map_some']
      simp only [lookupCoords]
      by_cases he : kv.1 = k
      · subst he; simp [hp]
      · rcases h with h | h
        · exact absurd h.symm he
        · simpa [he] using ih h

theorem foldl_fillStep_eq (coords : List (String × (Int × Int))) (rows cols : Nat) :
    ∀ (l : Qtable) (g : Grid),
      (∀ kv ∈ l, lookupCoords coords kv.1 = parse_grid_state kv.1) →
      l.foldl (fillStep coords rows cols) g = l.foldl (fillStepP rows cols) g := by
  intro l
  induction l with
  | nil => intro g _; rfl
  | cons kv t ih =>
    intro g h
    have hk : lookupCoords coords kv.1 = parse_grid_state kv.1 :=
      h kv (List.mem_cons_self kv t)
    have ht : ∀ kv' ∈ t, lookupCoords coords kv'.1 = parse_grid_state kv'.1 :=
      fun kv' hm => h kv' (List.mem_cons_of_mem kv hm)
    simp only [List.foldl_cons]
    rw [ih _ ht]
    congr 1
    simp [fillStep, fillStepP, hk]

theorem qtable_to_grid_eq_fillP (q : Qtable) (grid_shape : Option (Nat × Nat)) :
    qtable_to_grid q grid_shape =
      q.foldl (fillStepP (resolvedShape q grid_shape).1 (resolvedShape q grid_shape).2)
        (zerosGrid (resolvedShape q grid_shape).1 (resolvedShape q grid_shape).2) := by
  have hlk : ∀ kv ∈ q, lookupCoords (scanKeys q).state_coords kv.1 = parse_grid_state kv.1 := by
    intro kv hm
    have hcoords : (scanKeys q).state_coords = q.filterMap parsedEntry := by
      simpa using scanFold_coords q ⟨[], 0, 0⟩
    rw [hcoords]
    exact lookupCoords_of_mem q kv.1 (List.mem_map_of_mem Prod.fst hm)
  cases grid_shape with
  | some s =>
    simp only [qtable_to_grid, resolvedShape]
    exact foldl_fillStep_eq _ _ _ q _ hlk
  | none =>
    simp only [qtable_to_grid, resolvedShape]
    exact foldl_fillStep_eq _ _ _ q _ hlk

theorem foldl_writeAt_acc (rows cols i j : Nat) :
    ∀ (l : Qtable) (a : Option QVal),
      l.foldl (writeAt rows cols i j) a =
        match l.foldl (writeAt rows cols i j) none with
        | some v => some v
        | none => a := by
  intro l
  induction l with
  | nil => intro a; rfl
  | cons kv t ih =>
    intro a
    simp only [List.foldl_cons]
    cases hp : parse_grid_state kv.1 with
    | none =>
      simp only [writeAt, hp]
      exact ih a
    | some c =>
      obtain ⟨x, y⟩ := c
      by_cases hw :
          (0 ≤ y ∧ y < (rows : Int) ∧ 0 ≤ x ∧ x < (cols : Int)) ∧ (i : Int) = y ∧ (j : Int) = x
      · have e1 : writeAt rows cols i j a kv = some kv.2 := by
          simp only [writeAt, hp]; rw [if_pos hw]
        have e2 : writeAt rows cols i j none kv = some kv.2 := by
          simp only [writeAt, hp]; rw [if_pos hw]
        rw [e1, e2, ih (some kv.2)]
        cases t.foldl (writeAt rows cols i j) none <;> rfl
      · have e1 : writeAt rows cols i j a kv = a := by
          simp only [writeAt, hp]; rw [if_neg hw]
        have e2 : writeAt rows cols i j none kv = none := by
          simp only [writeAt, hp]; rw [if_neg hw]
        rw [e1, e2]
        exact ih a

theorem cell_foldl_fillP (rows cols : Nat) (i j : Nat) :
    ∀ (l : Qtable) (g : Grid),
      (l.foldl (fillStepP rows cols) g).cell i j =
        match lastCellWrite rows cols l i j with
        | some v => reduceQVal v
        | none => g.cell i j := by
  intro l
  induction l with
  | nil => intro g; rfl
  | cons kv t ih =>
    intro g
    simp only [List.foldl_cons, lastCellWrite]
    cases hp : parse_grid_state kv.1 with
    | none =>
      have e1 : fillStepP rows cols g kv = g := by
        simp only [fillStepP, hp]
      have e2 : writeAt rows cols i j none kv = none := by
        simp only [writeAt, hp]
      rw [e1, e2]
      exact ih g
    | some c =>
      obtain ⟨x, y⟩ := c
      by_cases hb : 0 ≤ y ∧ y < (rows : Int) ∧ 0 ≤ x ∧ x < (cols : Int)
      · have eFill : fillStepP rows cols g kv = gridSet g y x (reduceQVal kv.2) := by
          simp only [fillStepP, hp]; rw [if_pos hb]
        by_cases hcell : (i : Int) = y ∧ (j : Int) = x
        · have hw : (0 ≤ y ∧ y < (rows : Int) ∧ 0 ≤ x ∧ x < (cols : Int)) ∧
              (i : Int) = y ∧ (j : Int) = x := ⟨hb, hcell⟩
          have eW : writeAt rows cols i j none kv = some kv.2 := by
            simp only [writeAt, hp]; rw [if_pos hw]
          rw [eFill, eW, ih, foldl_writeAt_acc rows cols i j t (some kv.2)]
          simp only [lastCellWrite]
          cases t.foldl (writeAt rows cols i j) none with
          | none =>
            simp only [gridSet]
            rw [if_pos hcell]
          | some v => rfl
        · have hw : ¬ ((0 ≤ y ∧ y < (rows : Int) ∧ 0 ≤ x ∧ x < (cols : Int)) ∧
              (i : Int) = y ∧ (j : Int) = x) := fun hh => hcell hh.2
          have eW : writeAt rows cols i j none kv = none := by
            simp only [writeAt, hp]; rw [if_neg hw]
          rw [eFill, eW, ih]
          simp only [lastCellWrite]
          cases t.foldl (writeAt rows cols i j) none with
          | none =>
            simp only [gridSet]
            rw [if_neg hcell]
          | some v => rfl
      · have hw : ¬ ((0 ≤ y ∧ y < (rows : Int) ∧ 0 ≤ x ∧ x < (cols : Int)) ∧
            (i : Int) = y ∧ (j : Int) = x) := fun hh => hb hh.1
        have eFill : fillStepP rows cols g kv = g := by
          simp only [fillStepP, hp]; rw [if_neg hb]
        have eW : writeAt rows cols i j none kv = none := by
          simp only [writeAt, hp]; rw [if_neg hw]
        rw [eFill, eW]
        exact ih g

theorem fillStepP_rows (rows cols : Nat) (g : Grid) (kv : String × QVal) :
    (fillStepP rows cols g kv).rows = g.rows := by
  unfold fillStepP
  cases parse_grid_state kv.1 with
  | none => rfl
  | some c =>
    obtain ⟨x, y⟩ := c
    by_cases hb : 0 ≤ y ∧ y < (rows : Int) ∧ 0 ≤ x ∧ x < (cols : Int) <;>
      simp [hb, gridSet]

theorem fillStepP_cols (rows cols : Nat) (g : Grid) (kv : String × QVal) :
    (fillStepP rows cols g kv).cols = g.cols := by
  unfold fillStepP
  cases parse_grid_state kv.1 with
  | none => rfl
  | some c =>
    obtain ⟨x, y⟩ := c
    by_cases hb : 0 ≤ y ∧ y < (rows : Int) ∧ 0 ≤ x ∧ x < (cols : Int) <;>
      simp [hb, gridSet]

theorem foldl_fillP_rows (rows cols : Nat) :
    ∀ (l : Qtable) (g : Grid), (l.foldl (fillStepP rows cols) g).rows = g.rows := by
  intro l
  induction l with
  | nil => intro g; rfl
  | cons kv t ih =>
    intro g
    simp only [List.foldl_cons]
    rw [ih, fillStepP_rows]

theorem foldl_fillP_cols (rows cols : Nat) :
    ∀ (l : Qtable) (g : Grid), (l.foldl (fillStepP rows cols) g).cols = g.cols := by
  intro l
  induction l with
  | nil => intro g; rfl
  | cons kv t ih =>
    intro g
    simp only [List.foldl_cons]
    rw [ih, fillStepP_cols]

theorem qtable_to_grid_rows (q : Qtable) (grid_shape : Option (Nat × Nat)) :
    (qtable_to_grid q grid_shape).rows = (resolvedShape q grid_shape).1 := by
  rw [qtable_to_grid_eq_fillP, foldl_fillP_rows]
  rfl

theorem qtable_to_grid_cols (q : Qtable) (grid_shape : Option (Nat × Nat)) :
    (qtable_to_grid q grid_shape).cols = (resolvedShape q grid_shape).2 := by
  rw [qtable_to_grid_eq_fillP, foldl_fillP_cols]
  rfl

theorem qtable_to_grid_cell (q : Qtable) (grid_shape : Option (Nat × Nat)) (i j : Nat) :
    (qtable_to_grid q grid_shape).cell i j =
      match lastCellWrite (resolvedShape q grid_shape).1 (resolvedShape q grid_shape).2 q i j with
      | some v => reduceQVal v
      | none => 0 := by
  rw [qtable_to_grid_eq_fillP, cell_foldl_fillP]
  cases lastCellWrite (resolvedShape q grid_shape).1 (resolvedShape q grid_shape).2 q i j <;> rfl

theorem foldr_max_shift {α : Type} (g : α → Int) :
    ∀ (t : List α) (a b : Int),
      t.foldr (fun c m => max (g c) m) (max a b) =
        max b (t.foldr (fun c m => max (g c) m) a) := by
  intro t
  induction t with
  | nil => intro a b; exact max_comm a b
  | cons d t ih =>
    intro a b
    simp only [List.foldr_cons]
    rw [ih]
    exact max_left_comm _ _ _

theorem foldl_max_eq_foldr {α : Type} (g : α → Int) :
    ∀ (l : List α) (a : Int),
      l.foldl (fun m c => max m (g c)) a = l.foldr (fun c m => max (g c) m) a := by
  intro l
  induction l with
  | nil => intro a; rfl
  | cons c t ih =>
    intro a
    simp only [List.foldl_cons, List.foldr_cons]
    rw [ih (max a (g c))]
    exact foldr_max_shift g t a (g c)

theorem le_foldr_max {α : Type} (g : α → Int) :
    ∀ (l : List α) (a : Int), a ≤ l.foldr (fun c m => max (g c) m) a := by
  intro l
  induction l with
  | nil => intro a; exact le_refl a
  | cons c t ih =>
    intro a
    exact le_trans (ih a) (le_max_right _ _)

theorem scanKeys_max_y_eq (q : Qtable) : (scanKeys q).max_y = floorMaxY q := by
  have h := scanFold_max_y q ⟨[], 0, 0⟩
  simp only [scanKeys] at *
  rw [h]
  exact foldl_max_eq_foldr (fun c : Int × Int => c.2) (specParsedCoords q) 0

theorem scanKeys_max_x_eq (q : Qtable) : (scanKeys q).max_x = floorMaxX q := by
  have h := scanFold_max_x q ⟨[], 0, 0⟩
  simp only [scanKeys] at *
  rw [h]
  exact foldl_max_eq_foldr (fun c : Int × Int => c.1) (specParsedCoords q) 0

theorem floorMaxY_nonneg (q : Qtable) : 0 ≤ floorMaxY q :=
  le_foldr_max (fun c : Int × Int => c.2) (specParsedCoords q) 0

theorem floorMaxX_nonneg (q : Qtable) : 0 ≤ floorMaxX q :=
  le_foldr_max (fun c : Int × Int => c.1) (specParsedCoords q) 0

theorem lastCellWrite_eq_lastValueAt (rows cols : Nat) (x y : Int)
    (hx0 : 0 ≤ x) (hx : x < (cols : Int)) (hy0 : 0 ≤ y) (hy : y < (rows : Int)) :
    ∀ (q : Qtable) (a : Option QVal),
      q.foldl (writeAt rows cols y.toNat x.toNat) a =
        q.foldl (fun acc kv =>
          match parse_grid_state kv.1 with
          | some c => if c = (x, y) then some kv.2 else acc
          | none => acc) a := by
  intro q
  induction q with
  | nil => intro a; rfl
  | cons kv t ih =>
    intro a
    simp only [List.foldl_cons]
    rw [ih]
    congr 1
    cases hp : parse_grid_state kv.1 with
    | none => simp [writeAt, hp]
    | some c =>
      obtain ⟨x', y'⟩ := c
      simp only [writeAt, hp]
      by_cases he : (x', y') = (x, y)
      · obtain ⟨hex, hey⟩ := Prod.mk.injEq x' y' x y ▸ he
        subst hex; subst hey
        rw [if_pos, if_pos rfl]
        exact ⟨⟨hy0, hy, hx0, hx⟩, Int.toNat_of_nonneg hy0, Int.toNat_of_nonneg hx0⟩
      · rw [if_neg, if_neg he]
        rintro ⟨-, hcy, hcx⟩
        rw [Int.toNat_of_nonneg hy0] at hcy
        rw [Int.toNat_of_nonneg hx0] at hcx
        exact he (by rw [hcx, hcy])

theorem lastCellWrite_filter (r c : Nat) (i j : Nat) :
    ∀ (q : Qtable) (a : Option QVal),
      (q.filter (inBoundsKey r c)).foldl (writeAt r c i j) a =
        q.foldl (writeAt r c i j) a := by
  intro q
  induction q with
  | nil => intro a; rfl
  | cons kv t ih =>
    intro a
    cases hin : inBoundsKey r c kv with
    | true =>
      rw [List.filter_cons_of_pos hin]
      simp only [List.foldl_cons]
      exact ih _
    | false =>
      rw [List.filter_cons_of_neg (by simp [hin])]
      simp only [List.foldl_cons]
      have hneutral : writeAt r c i j a kv = a := by
        cases hp : parse_grid_state kv.1 with
        | none => simp [writeAt, hp]
        | some p =>
          obtain ⟨x, y⟩ := p
          simp only [inBoundsKey, hp, decide_eq_false_iff_not] at hin
          simp only [writeAt, hp]
          rw [if_neg]
          rintro ⟨hb, -⟩
          exact hin hb
      rw [ih, hneutral]

theorem scanKeys_discard (s : String) (v : QVal) (q1 q2 : Qtable)
    (h : parse_grid_state s = none) :
    scanKeys (q1 ++ (s, v) :: q2) = scanKeys (q1 ++ q2) := by
  simp [scanKeys, List.foldl_append, scanStep, h]

theorem qtable_discard (s : String) (v : QVal) (q1 q2 : Qtable)
    (shape : Option (Nat × Nat)) (h : parse_grid_state s = none) :
    qtable_to_grid (q1 ++ (s, v) :: q2) shape = qtable_to_grid (q1 ++ q2) shape := by
  have hscan : scanKeys (q1 ++ (s, v) :: q2) = scanKeys (q1 ++ q2) :=
    scanKeys_discard s v q1 q2 h
  have hcoords : (scanKeys (q1 ++ q2)).state_coords = (q1 ++ q2).filterMap parsedEntry := by
    have h2 := scanFold_coords (q1 ++ q2) ⟨[], 0, 0⟩
    rw [List.nil_append] at h2
    exact h2
  have hlook : lookupCoords (scanKeys (q1 ++ q2)).state_coords s = none := by
    rw [hcoords]
    exact lookupCoords_of_parse_none _ s h
  simp only [qtable_to_grid, hscan]
  rw [List.foldl_append, List.foldl_append, List.foldl_cons]
  congr 1
  simp [fillStep, hlook]

theorem foldl_writeAt_neutral (r c i j : Nat) :
    ∀ (q : Qtable), (∀ kv ∈ q, ∀ acc, writeAt r c i j acc kv = acc) →
      ∀ a : Option QVal, q.foldl (writeAt r c i j) a = a := by
  intro q
  induction q with
  | nil => intro _ a; rfl
  | cons kv t ih =>
    intro h a
    simp only [List.foldl_cons]
    rw [h kv (List.mem_cons_self kv t) a]
    exact ih (fun kv' hm => h kv' (List.mem_cons_of_mem kv hm)) a

theorem mem_specParsedCoords (q : Qtable) (kv : String × QVal) (p : Int × Int)
    (hm : kv ∈ q) (hp : parse_grid_state kv.1 = some p) :
    p ∈ specParsedCoords q := by
  simp only [specParsedCoords, List.mem_filterMap]
  exact ⟨kv, hm, hp⟩

theorem qtable_to_grid_cell_some (q : Qtable) (r c i j : Nat) :
    (qtable_to_grid q (some (r, c))).cell i j =
      match lastCellWrite r c q i j with
      | some v => reduceQVal v
      | none => 0 :=
  qtable_to_grid_cell q (some (r, c)) i j

theorem foldr_max_zero_of_nonpos {α : Type} (g : α → Int) :
    ∀ l : List α, (∀ p ∈ l, g p ≤ 0) → l.foldr (fun c m => max (g c) m) 0 = 0 := by
  intro l
  induction l with
  | nil => intro _; rfl
  | cons p t ih =>
    intro h
    simp only [List.foldr_cons]
    rw [ih (fun p' hm => h p' (List.mem_cons_of_mem p hm))]
    exact max_eq_right (h p (List.mem_cons_self p t))

/-- C1: on the Q-table `{"(0,0)": 1.0, "(1,0)": {"up": 2.0, "down": 0.5},
"(0,1)": 3.0}` with no explicit shape, `qtable_to_grid` returns a 2×2 grid
with `grid[0][0] = 1.0`, `grid[0][1] = 2.0`, `grid[1][0] = 3.0` and
`grid[1][1] = 0.0`. -/
theorem claim_C1 :
    (qtable_to_grid exampleQtable none).rows = 2 ∧
    (qtable_to_grid exampleQtable none).cols = 2 ∧
    (qtable_to_grid exampleQtable none).cell 0 0 = 1 ∧
    (qtable_to_grid exampleQtable none).cell 0 1 = 2 ∧
    (qtable_to_grid exampleQtable none).cell 1 0 = 3 ∧
    (qtable_to_grid exampleQtable none).cell 1 1 = 0 :=
  ⟨by decide, by decide, by decide, by decide, by decide, by decide⟩

/-- C2: for every Q-table and every `(x, y)` inside the resolved grid
bounds, the value of cell `grid[y][x]` is the reduction (dict maximum, or
the value itself) of the value of the last key in traversal order parsing
to `(x, y)`. -/
theorem claim_C2 (q : Qtable) (shape : Option (Nat × Nat)) (x y : Int) (v : QVal)
    (hy0 : 0 ≤ y) (hy : y < ((resolvedShape q shape).1 : Int))
    (hx0 : 0 ≤ x) (hx : x < ((resolvedShape q shape).2 : Int))
    (hlast : lastValueAt q x y = some v) :
    (qtable_to_grid q shape).cell y.toNat x.toNat = reduceQVal v := by
  rw [qtable_to_grid_cell q shape y.toNat x.toNat]
  have hb : lastCellWrite (resolvedShape q shape).1 (resolvedShape q shape).2
      q y.toNat x.toNat = lastValueAt q x y :=
    lastCellWrite_eq_lastValueAt (resolvedShape q shape).1 (resolvedShape q shape).2
      x y hx0 hx hy0 hy q none
  rw [hb, hlast]

/-- Witness for C2: two keys both parse to `(0, 0)`; the later one (a dict
whose maximum is 5) wins, so the 1×1 inferred grid holds 5. -/
theorem claim_C2_witness :
    (qtable_to_grid [("(0,0)", QVal.num 1), ("0 0 again", QVal.dict [("a", 5), ("b", 2)])]
      none).cell 0 0 = 5 :=
  (claim_C2 [("(0,0)", QVal.num 1), ("0 0 again", QVal.dict [("a", 5), ("b", 2)])]
    none 0 0 (QVal.dict [("a", 5), ("b", 2)])
    (by decide) (by decide) (by decide) (by decide) (by decide)).trans (by decide)

/-- C3 (amended): an explicit shape is used verbatim; with no explicit
shape, the grid height is `m_y + 1` and the width `m_x + 1`, where `m_y`
(`m_x`) is the maximum of `0` together with every parsed `y` (`x`) — the
scan's maxima start at `0`, so they never drop below it. -/
theorem claim_C3 (q : Qtable) (shape : Option (Nat × Nat)) :
    (∀ r c, shape = some (r, c) →
      (qtable_to_grid q shape).rows = r ∧ (qtable_to_grid q shape).cols = c) ∧
    (shape = none →
      ((qtable_to_grid q shape).rows : Int) = floorMaxY q + 1 ∧
      ((qtable_to_grid q shape).cols : Int) = floorMaxX q + 1) := by
  constructor
  · rintro r c rfl
    rw [qtable_to_grid_rows, qtable_to_grid_cols]
    exact ⟨rfl, rfl⟩
  · rintro rfl
    rw [qtable_to_grid_rows, qtable_to_grid_cols]
    simp only [resolvedShape]
    rw [scanKeys_max_y_eq, scanKeys_max_x_eq]
    have hy := floorMaxY_nonneg q
    have hx := floorMaxX_nonneg q
    constructor
    · rw [Int.toNat_of_nonneg (by omega)]
    · rw [Int.toNat_of_nonneg (by omega)]

/-- Witness for C3: an explicit 3×4 shape is used verbatim, and the
inferred shape for the key `"(2,1)"` follows the floored maxima. -/
theorem claim_C3_witness :
    ((qtable_to_grid [("(2,1)", QVal.num 4)] (some (3, 4))).rows = 3 ∧
      (qtable_to_grid [("(2,1)", QVal.num 4)] (some (3, 4))).cols = 4) ∧
    (((qtable_to_grid [("(2,1)", QVal.num 4)] none).rows : Int) =
        floorMaxY [("(2,1)", QVal.num 4)] + 1 ∧
      ((qtable_to_grid [("(2,1)", QVal.num 4)] none).cols : Int) =
        floorMaxX [("(2,1)", QVal.num 4)] + 1) :=
  ⟨(claim_C3 [("(2,1)", QVal.num 4)] (some (3, 4))).1 3 4 rfl,
   (claim_C3 [("(2,1)", QVal.num 4)] none).2 rfl⟩

/-- Counterexample to C3 as stated: for the single key `"(-1,-2)"` the
maximum parsed `y` is `-2`, so the claimed height would be `-2 + 1 = -1`,
but the code returns a 1-row grid (its running maxima start at `0`). -/
theorem claim_C3_counterexample :
    specParsedCoords [("(-1,-2)", QVal.num 5)] = [(-1, -2)] ∧
    (qtable_to_grid [("(-1,-2)", QVal.num 5)] none).rows = 1 ∧
    ((-2 : Int) + 1 ≠ (1 : Int)) :=
  ⟨by decide, by decide, by decide⟩

/-- C4: `parse_grid_state` returns the first two extracted integers as
`(x, y)` when there are at least two, returns `None` when there are fewer
than two, and a key with `None` coordinates is discarded: removing it from
the table leaves the resulting grid unchanged. -/
theorem claim_C4 (s : String) (q1 q2 : Qtable) (v : QVal) (shape : Option (Nat × Nat)) :
    (∀ a b rest, findInts s.data = a :: b :: rest → parse_grid_state s = some (a, b)) ∧
    ((findInts s.data).length < 2 → parse_grid_state s = none) ∧
    (parse_grid_state s = none →
      qtable_to_grid (q1 ++ (s, v) :: q2) shape = qtable_to_grid (q1 ++ q2) shape) := by
  refine ⟨?_, ?_, qtable_discard s v q1 q2 shape⟩
  · intro a b rest h
    simp [parse_grid_state, h]
  · intro h
    cases hf : findInts s.data with
    | nil => simp [parse_grid_state, hf]
    | cons a t =>
      cases t with
      | nil => simp [parse_grid_state, hf]
      | cons b r =>
        rw [hf] at h
        simp only [List.length_cons] at h
        omega

/-- Witness for C4: `"state5"` contains a single integer, parses to
`None`, and contributes nothing to the grid. -/
theorem claim_C4_witness :
    parse_grid_state "state5" = none ∧
    qtable_to_grid [("(0,0)", QVal.num 1), ("state5", QVal.num 9)] none =
      qtable_to_grid [("(0,0)", QVal.num 1)] none :=
  ⟨by decide,
   (claim_C4 "state5" [("(0,0)", QVal.num 1)] [] (QVal.num 9) none).2.2 (by decide)⟩

/-- C5: with an explicit `r × c` shape, out-of-bounds keys are skipped:
every cell equals the cell of the grid built from the in-bounds keys
alone, and a cell that no in-bounds key writes keeps its initial zero. -/
theorem claim_C5 (q : Qtable) (r c : Nat) (i j : Nat) :
    ((qtable_to_grid q (some (r, c))).cell i j =
      (qtable_to_grid (q.filter (inBoundsKey r c)) (some (r, c))).cell i j) ∧
    (lastCellWrite r c q i j = none →
      (qtable_to_grid q (some (r, c))).cell i j = 0) := by
  constructor
  · rw [qtable_to_grid_cell_some, qtable_to_grid_cell_some]
    have hf : lastCellWrite r c (q.filter (inBoundsKey r c)) i j =
        lastCellWrite r c q i j :=
      lastCellWrite_filter r c i j q none
    rw [hf]
  · intro hnone
    rw [qtable_to_grid_cell_some, hnone]

/-- Witness for C5: the key `"(5,5)"` is outside the explicit 2×2 shape,
is filtered away, and cell `(0, 0)` keeps its zero. -/
theorem claim_C5_witness :
    ((qtable_to_grid [("(5,5)", QVal.num 9)] (some (2, 2))).cell 0 0 =
      (qtable_to_grid (List.filter (inBoundsKey 2 2) [("(5,5)", QVal.num 9)])
        (some (2, 2))).cell 0 0) ∧
    (qtable_to_grid [("(5,5)", QVal.num 9)] (some (2, 2))).cell 0 0 = 0 :=
  ⟨(claim_C5 [("(5,5)", QVal.num 9)] 2 2 0 0).1,
   (claim_C5 [("(5,5)", QVal.num 9)] 2 2 0 0).2 (by decide)⟩

/-- C9 (amended): the explicit shape overrides the inferred one exactly
when both `--rows` and `--cols` are supplied with nonzero values — Python
truthiness makes a supplied `0` behave like an absent argument. -/
theorem claim_C9 (rows cols : Option Int) (r c : Int) :
    mainGridShape rows cols = some (r, c) ↔
      rows = some r ∧ cols = some c ∧ r ≠ 0 ∧ c ≠ 0 := by
  cases rows with
  | none => simp [mainGridShape, optIntTruthy]
  | some a =>
    cases cols with
    | none => simp [mainGridShape, optIntTruthy]
    | some b =>
      by_cases ha : a = 0
      · have hm : mainGridShape (some a) (some b) = none := by
          simp [mainGridShape, optIntTruthy, ha]
        rw [hm]
        constructor
        · intro h
          exact absurd h (by simp)
        · rintro ⟨hr, -, hrne, -⟩
          rw [Option.some.injEq] at hr
          exact absurd (hr ▸ ha) hrne
      · by_cases hb : b = 0
        · have hm : mainGridShape (some a) (some b) = none := by
            simp [mainGridShape, optIntTruthy, hb]
          rw [hm]
          constructor
          · intro h
            exact absurd h (by simp)
          · rintro ⟨-, hc, -, hcne⟩
            rw [Option.some.injEq] at hc
            exact absurd (hc ▸ hb) hcne
        · have hm : mainGridShape (some a) (some b) = some (a, b) := by
            simp [mainGridShape, optIntTruthy, ha, hb]
          rw [hm]
          constructor
          · intro h
            rw [Option.some.injEq, Prod.mk.injEq] at h
            obtain ⟨rfl, rfl⟩ := h
            exact ⟨rfl, rfl, ha, hb⟩
          · rintro ⟨hr, hc, -, -⟩
            rw [Option.some.injEq] at hr hc
            rw [hr, hc]

/-- Counterexample to C9 as stated: both flags are supplied
(`--rows 0 --cols 5`), yet the shape is not overridden — `main` tests
Python truthiness, and `0` is falsy. -/
theorem claim_C9_counterexample :
    (some (0 : Int) ≠ (none : Option Int)) ∧
    (some (5 : Int) ≠ (none : Option Int)) ∧
    mainGridShape (some 0) (some 5) = none :=
  ⟨by decide, by decide, by decide⟩

/-- C10: with no explicit shape, the grid always has at least one row and
one column; when every parsed coordinate is negative (or no key parses),
the result is the 1×1 zero grid. -/
theorem claim_C10 (q : Qtable) (i j : Nat) :
    1 ≤ (qtable_to_grid q none).rows ∧ 1 ≤ (qtable_to_grid q none).cols ∧
    ((∀ p ∈ specParsedCoords q, p.1 < 0 ∧ p.2 < 0) →
      (qtable_to_grid q none).rows = 1 ∧ (qtable_to_grid q none).cols = 1 ∧
      (qtable_to_grid q none).cell i j = 0) := by
  have hynn := floorMaxY_nonneg q
  have hxnn := floorMaxX_nonneg q
  have hrows : (qtable_to_grid q none).rows = (floorMaxY q + 1).toNat := by
    rw [qtable_to_grid_rows]
    simp only [resolvedShape]
    rw [scanKeys_max_y_eq]
  have hcols : (qtable_to_grid q none).cols = (floorMaxX q + 1).toNat := by
    rw [qtable_to_grid_cols]
    simp only [resolvedShape]
    rw [scanKeys_max_x_eq]
  refine ⟨by rw [hrows]; omega, by rw [hcols]; omega, ?_⟩
  intro hneg
  have hymax : floorMaxY q = 0 :=
    foldr_max_zero_of_nonpos (fun p : Int × Int => p.2) (specParsedCoords q)
      (fun p hm => le_of_lt (hneg p hm).2)
  have hxmax : floorMaxX q = 0 :=
    foldr_max_zero_of_nonpos (fun p : Int × Int => p.1) (specParsedCoords q)
      (fun p hm => le_of_lt (hneg p hm).1)
  refine ⟨by rw [hrows, hymax]; rfl, by rw [hcols, hxmax]; rfl, ?_⟩
  have hlw : lastCellWrite (resolvedShape q none).1 (resolvedShape q none).2 q i j = none := by
    apply foldl_writeAt_neutral
    intro kv hm acc
    cases hp : parse_grid_state kv.1 with
    | none => simp [writeAt, hp]
    | some p =>
      obtain ⟨x, y⟩ := p
      have hmem := mem_specParsedCoords q kv (x, y) hm hp
      have hylt : y < 0 := (hneg (x, y) hmem).2
      simp only [writeAt, hp]
      rw [if_neg]
      rintro ⟨⟨hy0, -⟩, -⟩
      omega
  rw [qtable_to_grid_cell q none i j, hlw]

/-- Witness for C10: a table whose only parseable key has negative
coordinates yields the 1×1 zero grid. -/
theorem claim_C10_witness :
    1 ≤ (qtable_to_grid [("state5", QVal.num 7), ("(-1,-2)", QVal.num 3)] none).rows ∧
    (qtable_to_grid [("state5", QVal.num 7), ("(-1,-2)", QVal.num 3)] none).rows = 1 ∧
    (qtable_to_grid [("state5", QVal.num 7), ("(-1,-2)", QVal.num 3)] none).cols = 1 ∧
    (qtable_to_grid [("state5", QVal.num 7), ("(-1,-2)", QVal.num 3)] none).cell 0 0 = 0 :=
  ⟨(claim_C10 [("state5", QVal.num 7), ("(-1,-2)", QVal.num 3)] 0 0).1,
   ((claim_C10 [("state5", QVal.num 7), ("(-1,-2)", QVal.num 3)] 0 0).2.2 (by decide)).1,
   ((claim_C10 [("state5", QVal.num 7), ("(-1,-2)", QVal.num 3)] 0 0).2.2 (by decide)).2.1,
   ((claim_C10 [("state5", QVal.num 7), ("(-1,-2)", QVal.num 3)] 0 0).2.2 (by decide)).2.2⟩

theorem ratMul_eq (a b : ℚ) : ratMul a b = a * b := by
  rw [ratMul, Rat.mkRat_eq_div]
  push_cast
  conv_rhs => rw [← Rat.num_div_den a, ← Rat.num_div_den b]
  rw [div_mul_div_comm]

theorem ratSub_eq (a b : ℚ) : ratSub a b = a - b := by
  rw [ratSub, Rat.mkRat_eq_div]
  push_cast
  conv_rhs => rw [← Rat.num_div_den a, ← Rat.num_div_den b]
  have ha : ((a.den : ℚ)) ≠ 0 := Nat.cast_ne_zero.mpr a.den_pos.ne'
  have hb : ((b.den : ℚ)) ≠ 0 := Nat.cast_ne_zero.mpr b.den_pos.ne'
  field_simp
  ring

theorem replaceAllAux_nil (pat rep : List Char) :
    ∀ fuel, replaceAllAux pat rep fuel [] = [] := by
  intro fuel
  cases fuel <;> rfl

theorem replaceAllAux_fuel_irrel (pat rep : List Char) :
    ∀ f1 f2 (l : List Char), l.length ≤ f1 → l.length ≤ f2 →
      replaceAllAux pat rep f1 l = replaceAllAux pat rep f2 l := by
  intro f1
  induction f1 with
  | zero =>
    intro f2 l h1 _
    have : l = [] := List.eq_nil_of_length_eq_zero (Nat.le_zero.mp h1)
    subst this
    simp [replaceAllAux_nil]
  | succ f ih =>
    intro f2 l h1 h2
    cases l with
    | nil => simp [replaceAllAux_nil]
    | cons c rest =>
      obtain ⟨f2', rfl⟩ : ∃ k, f2 = k + 1 := by
        cases f2 with
        | zero => simp at h2
        | succ k => exact ⟨k, rfl⟩
      simp only [List.length_cons] at h1 h2
      by_cases hp : pat ≠ [] ∧ pat.isPrefixOf (c :: rest) = true
      · have hlen : 1 ≤ pat.length := by
          cases pat with
          | nil => exact absurd rfl hp.1
          | cons a t => simp
        have hdrop : ((c :: rest).drop pat.length).length ≤ rest.length := by
          rw [List.length_drop]
          simp only [List.length_cons]
          omega
        simp only [replaceAllAux, if_pos hp]
        rw [ih f2' _ (by omega) (by omega)]
      · simp only [replaceAllAux, if_neg hp]
        rw [ih f2' _ (by omega) (by omega)]

theorem countP_boardCmds (p : DrawCmd → Bool) (N : Nat)
    (hsq : ∀ x y light, p (DrawCmd.square x y light) = false) :
    ∀ xs : List Nat,
      (xs.foldr
        (fun x acc =>
          ((List.range N).map (fun y => DrawCmd.square x y (decide ((x + y) % 2 = 0)))) ++ acc)
        []).countP p = 0 := by
  intro xs
  induction xs with
  | nil => rfl
  | cons x t ih =>
    simp only [List.foldr_cons]
    rw [List.countP_append, ih]
    have hmap : ((List.range N).map
        (fun y => DrawCmd.square x y (decide ((x + y) % 2 = 0)))).countP p = 0 := by
      rw [List.countP_eq_zero]
      intro a ha
      obtain ⟨y, -, rfl⟩ := List.mem_map.mp ha
      simp [hsq]
    omega

theorem countArrows_stepCmds (path : List (Int × Int)) (i : Nat) :
    countArrows (stepCmds path i) = 1 := by
  by_cases h : 0 < i <;>
    simp [countArrows, stepCmds, h, List.countP_cons, isArrowCmd]

theorem countStepNums_stepCmds (path : List (Int × Int)) (i : Nat) :
    countStepNums (stepCmds path i) = if 0 < i then 1 else 0 := by
  by_cases h : 0 < i <;>
    simp [countStepNums, stepCmds, h, List.countP_cons, isStepNumCmd]

theorem countArrows_pathSteps (path : List (Int × Int)) :
    ∀ n, countArrows (pathSteps path n) = n := by
  intro n
  induction n with
  | zero => rfl
  | succ k ih =>
    simp only [pathSteps, countArrows] at *
    rw [List.countP_append, ih]
    have := countArrows_stepCmds path k
    simp only [countArrows] at this
    omega

theorem countStepNums_pathSteps (path : List (Int × Int)) :
    ∀ n, countStepNums (pathSteps path n) = n - 1 := by
  intro n
  induction n with
  | zero => rfl
  | succ k ih =>
    simp only [pathSteps, countStepNums] at *
    rw [List.countP_append, ih]
    have := countStepNums_stepCmds path k
    simp only [countStepNums] at this
    rw [this]
    by_cases h : 0 < k <;> simp [h] <;> omega

theorem countArrows_endCmds (path : List (Int × Int)) :
    countArrows (endCmds path) = 0 := by
  by_cases h : 1 < path.length <;>
    simp [countArrows, endCmds, h, List.countP_cons, isArrowCmd]

theorem countStepNums_endCmds (path : List (Int × Int)) :
    countStepNums (endCmds path) = if 1 < path.length then 1 else 0 := by
  by_cases h : 1 < path.length <;>
    simp [countStepNums, endCmds, h, List.countP_cons, isStepNumCmd]

theorem mem_pathSteps_of_lt (path : List (Int × Int)) (i : Nat) :
    ∀ n, i < n → ∀ cmd ∈ stepCmds path i, cmd ∈ pathSteps path n := by
  intro n
  induction n with
  | zero => omega
  | succ k ih =>
    intro hi cmd hm
    simp only [pathSteps]
    rcases Nat.lt_succ_iff_lt_or_eq.mp hi with h | h
    · exact List.mem_append_left _ (ih h cmd hm)
    · subst h
      exact List.mem_append_right _ hm

theorem toString_digit (k : Nat) (hk : k < 10) :
    ∃ c, (toString k).data = [c] ∧ c.isDigit = true := by
  interval_cases k
  · exact ⟨'0', by decide, by decide⟩
  · exact ⟨'1', by decide, by decide⟩
  · exact ⟨'2', by decide, by decide⟩
  · exact ⟨'3', by decide, by decide⟩
  · exact ⟨'4', by decide, by decide⟩
  · exact ⟨'5', by decide, by decide⟩
  · exact ⟨'6', by decide, by decide⟩
  · exact ⟨'7', by decide, by decide⟩
  · exact ⟨'8', by decide, by decide⟩
  · exact ⟨'9', by decide, by decide⟩

theorem endsInDotDigit_append (t dstr : String) (c : Char)
    (hd : dstr.data = [c]) (hc : c.isDigit = true) :
    endsInDotDigit (t ++ "." ++ dstr) = true := by
  unfold endsInDotDigit
  have hdata : (t ++ "." ++ dstr).data = t.data ++ ('.' :: [c]) := by
    rw [String.data_append, String.data_append, hd, List.append_assoc]
    rfl
  rw [hdata, List.reverse_append]
  simp [hc]

theorem format_fixed1_one_decimal (q : ℚ) :
    endsInDotDigit (format_fixed1 q) = true := by
  obtain ⟨c, hc, hdig⟩ :=
    toString_digit ((roundHalfEven (ratMul ((10 : Int) : ℚ) q)).natAbs % 10)
      (Nat.mod_lt _ (by norm_num))
  exact endsInDotDigit_append _ _ c hc hdig

/-- C6: the renderer draws exactly `L - 1` arrows (one from `path[i]` to
`path[i+1]` for each `i < L - 1`) and exactly `L - 1` step-number labels
(the start cell carries `"S"` instead of the label `1`); subtraction is
truncated, so a path of length `0` draws nothing. -/
theorem claim_C6 (d : KnightData) (output_path : String) (i : Nat) :
    countArrows (visualize_knight_tour d output_path).cmds = d.path.length - 1 ∧
    countStepNums (visualize_knight_tour d output_path).cmds = d.path.length - 1 ∧
    (i < d.path.length - 1 →
      DrawCmd.arrow (d.path.getD i (0, 0)).1 (d.path.getD i (0, 0)).2
          (d.path.getD (i + 1) (0, 0)).1 (d.path.getD (i + 1) (0, 0)).2 ∈
        (visualize_knight_tour d output_path).cmds) := by
  have hboardA : countArrows (boardCmds d.board_size) = 0 :=
    countP_boardCmds isArrowCmd d.board_size (fun _ _ _ => rfl) _
  have hboardS : countStepNums (boardCmds d.board_size) = 0 :=
    countP_boardCmds isStepNumCmd d.board_size (fun _ _ _ => rfl) _
  refine ⟨?_, ?_, ?_⟩
  · simp only [visualize_knight_tour, countArrows, List.countP_append]
    simp only [countArrows] at hboardA
    have h1 := countArrows_pathSteps d.path (d.path.length - 1)
    have h2 := countArrows_endCmds d.path
    simp only [countArrows] at h1 h2
    simp [hboardA, h1, h2, isArrowCmd, List.countP_cons]
  · simp only [visualize_knight_tour, countStepNums, List.countP_append]
    simp only [countStepNums] at hboardS
    have h1 := countStepNums_pathSteps d.path (d.path.length - 1)
    have h2 := countStepNums_endCmds d.path
    simp only [countStepNums] at h1 h2
    rw [hboardS, h1, h2]
    simp only [List.countP_cons, List.countP_nil, isStepNumCmd]
    by_cases h : 1 < d.path.length <;> simp [h] <;> omega
  · intro hi
    have hstep : DrawCmd.arrow (d.path.getD i (0, 0)).1 (d.path.getD i (0, 0)).2
        (d.path.getD (i + 1) (0, 0)).1 (d.path.getD (i + 1) (0, 0)).2 ∈
        stepCmds d.path i := by
      simp [stepCmds]
    have hps := mem_pathSteps_of_lt d.path i (d.path.length - 1) hi _ hstep
    simp only [visualize_knight_tour]
    exact List.mem_append_left _ (List.mem_append_right _ hps)

/-- Witness for C6: a three-cell path yields two arrows and two
step-number labels, with an arrow from the first to the second cell. -/
theorem claim_C6_witness :
    countArrows (visualize_knight_tour
      ⟨5, (0, 0), [(0, 0), (2, 1), (4, 2)], 3, 25⟩ "out.png").cmds = 2 ∧
    countStepNums (visualize_knight_tour
      ⟨5, (0, 0), [(0, 0), (2, 1), (4, 2)], 3, 25⟩ "out.png").cmds = 2 ∧
    DrawCmd.arrow 0 0 2 1 ∈ (visualize_knight_tour
      ⟨5, (0, 0), [(0, 0), (2, 1), (4, 2)], 3, 25⟩ "out.png").cmds :=
  ⟨(claim_C6 ⟨5, (0, 0), [(0, 0), (2, 1), (4, 2)], 3, 25⟩ "out.png" 0).1,
   (claim_C6 ⟨5, (0, 0), [(0, 0), (2, 1), (4, 2)], 3, 25⟩ "out.png" 0).2.1,
   (claim_C6 ⟨5, (0, 0), [(0, 0), (2, 1), (4, 2)], 3, 25⟩ "out.png" 0).2.2 (by decide)⟩

/-- C7 (amended): the renderer writes exactly two files, the first at the
output path unchanged (dpi 150) and the second at the output path with
every occurrence of `".png"` — not only a final suffix — replaced by
`"_hq.png"` (dpi 300). -/
theorem claim_C7 (d : KnightData) (output_path : String) :
    (visualize_knight_tour d output_path).saved =
      [(output_path, 150), (pyReplace output_path ".png" "_hq.png", 300)] :=
  rfl

/-- Counterexample to C7 as stated: for the output path `"a.png.png"` the
code writes the second file to `"a_hq.png_hq.png"` (both occurrences
replaced), not to `"a.png_hq.png"` (suffix replaced). -/
theorem claim_C7_counterexample :
    ((visualize_knight_tour ⟨1, (0, 0), [], 0, 1⟩ "a.png.png").saved.map Prod.fst =
      ["a.png.png", "a_hq.png_hq.png"]) ∧
    specSuffixHq "a.png.png" = "a.png_hq.png" ∧
    ("a_hq.png_hq.png" : String) ≠ "a.png_hq.png" :=
  ⟨by decide, by decide, by decide⟩


